import Mathlib

/-!
Shallow embedding of the coastline ring-reconstruction pipeline
(`process-coastline.ts` and the land-polygon combine script) of the
`helsinki-hex-map` repository, together with theorems settling the
specification claims about it.

Coordinates are modelled as pairs of rational numbers (an exact model
of the JavaScript floating-point values the script manipulates).
`coordKey` models the `toFixed(6)` string key: two coordinates receive
the same string exactly when each component has the same sign flag and
the same value rounded to six decimals, so the key is modelled as the
pair (sign, rounded-magnitude) per component.
-/

/-- A geographic coordinate `[lon, lat]`, modelled exactly over ℚ. -/
abbrev Coord := ℚ × ℚ

/-- Model of JavaScript `q.toFixed(6)`: the rendered string is determined by
the sign of `q` together with `|q|` rounded to six decimal places
(ECMA `toFixed` keeps the `-` sign, so `-0.0000004` renders as `-0.000000`,
distinct from `0.000000`). -/
def toFixed6 (q : ℚ) : Bool × ℤ := (decide (q < 0), round (|q| * 1000000))

/-- The endpoint-matching key type: one `toFixed6` rendering per component. -/
abbrev Key := (Bool × ℤ) × (Bool × ℤ)

/-- `coordKey` from `process-coastline.ts`:
`` `${coord[0].toFixed(6)},${coord[1].toFixed(6)}` ``. -/
def coordKey (c : Coord) : Key := (toFixed6 c.1, toFixed6 c.2)

/-- The `startIndex` lookup of `mergeSegments`: ids of segments with at least
2 coordinates whose first coordinate has key `k`, in input order (the map is
populated by one forward pass pushing each id, so the bucket for `k` holds
exactly these ids in increasing order). -/
def startCandidates (segs : List (List Coord)) (k : Key) : List ℕ :=
  (List.range segs.length).filter
    (fun i => decide (2 ≤ (segs.getI i).length ∧ coordKey (segs.getI i).headI = k))

/-- The `endIndex` lookup of `mergeSegments`: ids of segments with at least
2 coordinates whose last coordinate has key `k`, in input order. -/
def endCandidates (segs : List (List Coord)) (k : Key) : List ℕ :=
  (List.range segs.length).filter
    (fun i => decide (2 ≤ (segs.getI i).length ∧ coordKey (segs.getI i).getLastI = k))

/-- The candidate scan `for (const candIdx of candidates) { if (used.has(candIdx)) continue; ... break; }`:
first candidate id not yet consumed. -/
def firstUnused (cands : List ℕ) (used : List ℕ) : Option ℕ :=
  cands.find? (fun c => decide (c ∉ used))

/-- The `while (iterations++ < maxIterations)` ring-extension loop of
`mergeSegments`.  State: remaining fuel (the iteration budget), the ring
accumulator, and the consumed-id set.  Returns the emitted ring, if any,
and the updated consumed set.  Each iteration first checks closure
(`coordKey(ring[0]) === endKey && ring.length > 3`), then scans the starts
index, then the ends index (appending the candidate reversed), and otherwise
force-closes (`ring.length > 10`) or discards.  Running out of fuel models
exceeding `maxIterations`: the loop is exited with nothing emitted. -/
def extendRing (segs : List (List Coord)) :
    ℕ → List Coord → List ℕ → Option (List Coord) × List ℕ
  | 0, _, used => (none, used)
  | fuel + 1, ring, used =>
    let endK := coordKey ring.getLastI
    if coordKey ring.headI = endK ∧ 3 < ring.length then
      (some ring, used)
    else
      match firstUnused (startCandidates segs endK) used with
      | some c => extendRing segs fuel (ring ++ (segs.getI c).drop 1) (c :: used)
      | none =>
        match firstUnused (endCandidates segs endK) used with
        | some c => extendRing segs fuel (ring ++ (segs.getI c).reverse.drop 1) (c :: used)
        | none =>
          if 10 < ring.length then (some (ring ++ [ring.headI]), used)
          else (none, used)

/-- The `maxIterations` constant of `mergeSegments`. -/
def maxIterations : ℕ := 10000

/-- The outer `for (let i = 0; ...)` loop of `mergeSegments`, processing the
given ids in order while threading the emitted rings and the consumed set. -/
def mergeSegsAux (segs : List (List Coord)) :
    List ℕ → List (List Coord) → List ℕ → List (List Coord) × List ℕ
  | [], rings, used => (rings, used)
  | i :: rest, rings, used =>
    if i ∈ used then mergeSegsAux segs rest rings used
    else
      let seg := segs.getI i
      if seg.length < 2 then mergeSegsAux segs rest rings used
      else if coordKey seg.headI = coordKey seg.getLastI then
        mergeSegsAux segs rest (rings ++ [seg]) (i :: used)
      else
        match extendRing segs maxIterations seg (i :: used) with
        | (some r, used') => mergeSegsAux segs rest (rings ++ [r]) used'
        | (none, used') => mergeSegsAux segs rest rings used'

/-- `mergeSegments` from `process-coastline.ts`. -/
def mergeSegments (segs : List (List Coord)) : List (List Coord) :=
  (mergeSegsAux segs (List.range segs.length) [] []).1

/-- The accumulation loop of `calculateRingArea`:
`for (i = 0; i < ring.length - 1; i++) { area += x_i*y_{i+1}; area -= x_{i+1}*y_i }`,
i.e. a sum over adjacent coordinate pairs. -/
def shoelaceLoop : List Coord → ℚ
  | p :: q :: rest => (p.1 * q.2 - q.1 * p.2) + shoelaceLoop (q :: rest)
  | _ => 0

/-- `calculateRingArea` from `process-coastline.ts`: `Math.abs(area / 2)`. -/
def calculateRingArea (ring : List Coord) : ℚ := |shoelaceLoop ring / 2|

/-- The signed shoelace sum as the specification words it: the sum over
consecutive coordinate pairs of `x_i * y_{i+1} - x_{i+1} * y_i`. -/
def specSignedSum (ring : List Coord) : ℚ :=
  ((ring.zip ring.tail).map (fun pq => pq.1.1 * pq.2.2 - pq.2.1 * pq.1.2)).sum

/-- `significantRings` from `processCoastlineData`:
`rings.filter(ring => calculateRingArea(ring) > 0.0001)`. -/
def significantRings (rings : List (List Coord)) : List (List Coord) :=
  rings.filter (fun ring => decide ((0.0001 : ℚ) < calculateRingArea ring))

/-- `sortedByArea` from `processCoastlineData`: a stable sort of the
significant rings by descending area
(`(a, b) => calculateRingArea(b) - calculateRingArea(a)`). -/
def sortedByArea (rings : List (List Coord)) : List (List Coord) :=
  (significantRings rings).mergeSort
    (fun a b => decide (calculateRingArea b ≤ calculateRingArea a))

/-- `mainLandFeatures` from `processCoastlineData`: `sortedByArea.slice(0, 50)`. -/
def mainLandFeatures (rings : List (List Coord)) : List (List Coord) :=
  (sortedByArea rings).take 50

/-- A GeoJSON polygon feature as the combine script manipulates it:
an id, a display name, and the polygon coordinates (a list of rings). -/
structure Feature where
  fid : String
  fname : String
  geometry : List (List Coord)
deriving DecidableEq, Inhabited

/-- `MAINLAND_POLYGON` from the combine script: the hand-authored coarse
mainland outline. -/
def MAINLAND_POLYGON : List Coord :=
  [(24.7828, 60.10), (24.7828, 60.30), (25.26, 60.30), (25.26, 60.20),
   (25.22, 60.20), (25.20, 60.195), (25.17, 60.19),
   (25.14, 60.185), (25.10, 60.18), (25.07, 60.175), (25.05, 60.175),
   (25.03, 60.172),
   (25.02, 60.17), (25.00, 60.168), (24.98, 60.165),
   (24.96, 60.162), (24.94, 60.158), (24.92, 60.155), (24.90, 60.153),
   (24.88, 60.152), (24.87, 60.155),
   (24.86, 60.158), (24.85, 60.162), (24.84, 60.168), (24.83, 60.175),
   (24.82, 60.182), (24.81, 60.19), (24.80, 60.20),
   (24.7828, 60.20), (24.7828, 60.10)]

/-- The mainland feature of the combine script. -/
def mainlandFeature : Feature :=
  { fid := "mainland", fname := "Helsinki Mainland", geometry := [MAINLAND_POLYGON] }

/-- `combinedFeatures` from the combine script: the mainland feature followed
by every island feature in order, each island re-labelled
(`id: island-i, name: Island i`) with its geometry spread through unchanged. -/
def combinedFeatures (islands : List Feature) : List Feature :=
  mainlandFeature ::
    islands.enum.map (fun p =>
      { p.2 with fid := "island-" ++ toString p.1, fname := "Island " ++ toString p.1 })

/-- A sample one-square island feature used to instantiate the combine-stage
theorem at a concrete input. -/
def sampleIsland : Feature :=
  { fid := "0", fname := "f0",
    geometry := [[((0:ℚ),(0:ℚ)), (1,0), (1,1), (0,1), (0,0)]] }

/-- A chain of `n` unit segments along the x-axis: segment `k` runs from
`(k, 0)` to `(k+1, 0)`; consecutive segments share an endpoint, so the chain
never closes and each extension step consumes exactly one segment. -/
def chainSegs (n : ℕ) : List (List Coord) :=
  (List.range n).map (fun k : ℕ => ([((k : ℚ), 0), ((k : ℚ) + 1, 0)] : List Coord))

/-- The ring accumulator after consuming chain segments `0..m`:
the coordinates `(0,0), (1,0), …, (m+1, 0)`. -/
def chainRing (m : ℕ) : List Coord :=
  (List.range (m + 2)).map (fun j : ℕ => (((j : ℚ)), 0))

/-- The consumed set after consuming chain segments `0..m` (most recent first). -/
def usedTo (m : ℕ) : List ℕ := (List.range (m + 1)).reverse

lemma shoelaceLoop_eq_specSignedSum : ∀ ring : List Coord, shoelaceLoop ring = specSignedSum ring
  | [] => by simp [shoelaceLoop, specSignedSum]
  | [p] => by simp [shoelaceLoop, specSignedSum]
  | p :: q :: rest => by
    have ih := shoelaceLoop_eq_specSignedSum (q :: rest)
    simp [shoelaceLoop, specSignedSum] at ih ⊢
    rw [ih]

/-- Claim C7: `calculateRingArea` is half the absolute value of the signed
shoelace sum over consecutive coordinate pairs, hence non-negative on every
input ring, and it evaluates to exactly 1 on the closed unit-square ring. -/
theorem calculateRingArea_spec :
    (∀ ring : List Coord,
        calculateRingArea ring = |specSignedSum ring| / 2 ∧ 0 ≤ calculateRingArea ring) ∧
      calculateRingArea [((0:ℚ),(0:ℚ)), (1,0), (1,1), (0,1), (0,0)] = 1 := by
  constructor
  · intro ring
    constructor
    · rw [calculateRingArea, shoelaceLoop_eq_specSignedSum, abs_div]
      norm_num
    · exact abs_nonneg _
  · with_unfolding_all decide

/-- Claim C5: forward stitching via the starts index closes the unit square
from segments `A`, `B`; reverse stitching via the ends index closes the same
square from `A`, `B′` (with `B′` appended reversed). -/
theorem mergeSegments_unit_square_stitching :
    mergeSegments [[((0:ℚ),(0:ℚ)), (1,0), (1,1)], [((1:ℚ),(1:ℚ)), (0,1), (0,0)]] =
        [[((0:ℚ),(0:ℚ)), (1,0), (1,1), (0,1), (0,0)]] ∧
      mergeSegments [[((0:ℚ),(0:ℚ)), (1,0), (1,1)], [((0:ℚ),(0:ℚ)), (0,1), (1,1)]] =
        [[((0:ℚ),(0:ℚ)), (1,0), (1,1), (0,1), (0,0)]] := by
  with_unfolding_all decide

/-- Counterexample to claim C1: a segment whose first and last coordinate keys
are equal is accepted directly as a closed ring even with only 3 points, so
the produced ring violates the claimed `at least 4 points` invariant. -/
theorem direct_closed_ring_three_points :
    mergeSegments [[((0:ℚ),(0:ℚ)), (1,0), (0,0)]] = [[((0:ℚ),(0:ℚ)), (1,0), (0,0)]] ∧
      (([((0:ℚ),(0:ℚ)), (1,0), (0,0)] : List Coord)).length = 3 := by
  with_unfolding_all decide

/-- Counterexample to claim C2: on input `A`, `B`, `C = [(0,0),(5,5)]` the
builder emits the closed square as soon as its leading key equals its trailing
key, even though segment 2 is an unconsumed starts-index continuation at that
key; under the claimed order segment 2 would have been consumed instead (and
the resulting 6-point open chain later discarded, leaving no output). -/
theorem closure_checked_before_continuation :
    mergeSegments
        [[((0:ℚ),(0:ℚ)), (1,0), (1,1)], [((1:ℚ),(1:ℚ)), (0,1), (0,0)],
         [((0:ℚ),(0:ℚ)), (5,5)]] =
        [[((0:ℚ),(0:ℚ)), (1,0), (1,1), (0,1), (0,0)]] ∧
      (2 : ℕ) ∈ startCandidates
        [[((0:ℚ),(0:ℚ)), (1,0), (1,1)], [((1:ℚ),(1:ℚ)), (0,1), (0,0)],
         [((0:ℚ),(0:ℚ)), (5,5)]] (coordKey ((0:ℚ), (0:ℚ))) := by
  with_unfolding_all decide

/-- Claim C2 as amended: the extension loop checks closure at the top of each
iteration; whenever the ring's leading coordinate key equals its trailing key
and the ring has more than 3 points, the ring is emitted as-is — unconsumed
continuations notwithstanding — and the consumed set is left unchanged. -/
theorem extendRing_closure_first (segs : List (List Coord)) (fuel : ℕ)
    (ring : List Coord) (used : List ℕ)
    (hkey : coordKey ring.headI = coordKey ring.getLastI) (hlen : 3 < ring.length) :
    extendRing segs (fuel + 1) ring used = (some ring, used) := by
  simp [extendRing, hkey, hlen]

/-- Witness for `extendRing_closure_first`: the closed unit square is emitted
unchanged even though segment 0 of the input is an unconsumed continuation
starting at the trailing key. -/
theorem extendRing_closure_first_witness :
    extendRing [[((0:ℚ),(0:ℚ)), (5,5)]] 10000
        [((0:ℚ),(0:ℚ)), (1,0), (1,1), (0,1), (0,0)] [] =
      (some [((0:ℚ),(0:ℚ)), (1,0), (1,1), (0,1), (0,0)], []) :=
  extendRing_closure_first _ 9999 _ _ (by with_unfolding_all decide) (by decide)

/-- Claim C3 as amended: exceeding the iteration cap abandons the in-progress
ring unconditionally — nothing is emitted and the consumed set is returned
as-is, even when the ring's vertex count is above the force-close threshold
(so the step-3 force-close/discard policy is *not* applied). -/
theorem extendRing_fuel_exhausted_discards (segs : List (List Coord))
    (ring : List Coord) (used : List ℕ) (_hlen : 10 < ring.length) :
    extendRing segs 0 ring used = (none, used) := by
  simp [extendRing]

/-- Witness for `extendRing_fuel_exhausted_discards`: a 12-point ring is
dropped at fuel exhaustion. -/
theorem extendRing_fuel_exhausted_discards_witness :
    extendRing []
        0 [((0:ℚ),(0:ℚ)), (1,0), (2,0), (3,0), (4,0), (5,0), (6,0), (7,0),
           (8,0), (9,0), (10,0), (11,0)] [] = (none, []) :=
  extendRing_fuel_exhausted_discards [] _ [] (by decide)

/-- Counterexample to claim C6: the components of `(0.0000004, 0)` and
`(0.0000006, 0)` differ by less than the quantization tolerance `0.000001`
(indeed by less than half of it), yet the two coordinates straddle a rounding
boundary and receive different keys. -/
theorem coordKey_tolerance_counterexample :
    |(0.0000004 : ℚ) - 0.0000006| < 0.000001 ∧
      coordKey ((0.0000004 : ℚ), 0) ≠ coordKey ((0.0000006 : ℚ), 0) := by
  with_unfolding_all decide

/-- Claim C6 as amended: two coordinates share a key exactly when each
component has the same `toFixed(6)` rendering (same sign flag and same
rounded six-decimal integer); each component's quantized magnitude is within
half a quantization step (`5·10⁻⁷`) of the true magnitude, but nearby
coordinates can straddle a rounding boundary and get different keys. -/
theorem coordKey_quantization :
    (∀ c d : Coord,
        coordKey c = coordKey d ↔ toFixed6 c.1 = toFixed6 d.1 ∧ toFixed6 c.2 = toFixed6 d.2) ∧
      ∀ q : ℚ, |abs q - ((toFixed6 q).2 : ℚ) / 1000000| ≤ 1 / 2000000 := by
  constructor
  · intro c d
    simp [coordKey, Prod.ext_iff]
  · intro q
    have h := abs_sub_round ((|q|) * 1000000)
    rw [toFixed6]
    have : |q| - (round (|q| * 1000000) : ℚ) / 1000000 =
        (|q| * 1000000 - (round (|q| * 1000000) : ℚ)) / 1000000 := by ring
    rw [this, abs_div]
    rw [abs_of_pos (by norm_num : (0:ℚ) < 1000000)]
    calc |(|q| * 1000000 - (round (|q| * 1000000) : ℚ))| / 1000000
        ≤ (1 / 2) / 1000000 := by
          apply div_le_div_of_nonneg_right h (by norm_num)
      _ = 1 / 2000000 := by norm_num

/-- Claim C4: every ring in the final land-mass set has area strictly above
the `0.0001` threshold, the set is ordered by descending area, its size is
the minimum of 50 and the number of significant rings — so 100 significant
rings yield exactly 50 output features — and no ring at or below the
threshold ever appears. -/
theorem mainLandFeatures_spec (rings : List (List Coord)) :
    (∀ r ∈ mainLandFeatures rings, (0.0001 : ℚ) < calculateRingArea r) ∧
      (mainLandFeatures rings).Pairwise
        (fun a b => calculateRingArea b ≤ calculateRingArea a) ∧
      (mainLandFeatures rings).length = min 50 (significantRings rings).length ∧
      ((significantRings rings).length = 100 → (mainLandFeatures rings).length = 50) := by
  have hlen : (mainLandFeatures rings).length = min 50 (significantRings rings).length := by
    rw [mainLandFeatures, List.length_take, sortedByArea, List.length_mergeSort]
  refine ⟨?_, ?_, hlen, ?_⟩
  · intro r hr
    have hr' : r ∈ sortedByArea rings := List.mem_of_mem_take hr
    rw [sortedByArea, List.mem_mergeSort] at hr'
    have := (List.mem_filter.mp hr').2
    exact of_decide_eq_true this
  · have hsorted : (sortedByArea rings).Pairwise
        (fun a b => decide (calculateRingArea b ≤ calculateRingArea a) = true) := by
      apply List.sorted_mergeSort
      · intro a b c hab hbc
        simp only [decide_eq_true_eq] at hab hbc ⊢
        exact le_trans hbc hab
      · intro a b
        simp only [Bool.or_eq_true, decide_eq_true_eq]
        exact le_total (calculateRingArea b) (calculateRingArea a)
    have htake : (mainLandFeatures rings).Pairwise
        (fun a b => decide (calculateRingArea b ≤ calculateRingArea a) = true) :=
      hsorted.sublist (List.take_sublist _ _)
    exact htake.imp (fun h => of_decide_eq_true h)
  · intro h100
    rw [hlen, h100]
    norm_num

/-- Witness for `mainLandFeatures_spec`: on 100 copies of the unit square
(each of area 1, above threshold) the output has exactly 50 features, and the
unit square — a member of the output — has area above the threshold. -/
theorem mainLandFeatures_spec_witness :
    (0.0001 : ℚ) < calculateRingArea [((0:ℚ),(0:ℚ)), (1,0), (1,1), (0,1), (0,0)] ∧
      (mainLandFeatures
        (List.replicate 100 [((0:ℚ),(0:ℚ)), (1,0), (1,1), (0,1), (0,0)])).length = 50 :=
  ⟨(mainLandFeatures_spec
      (List.replicate 100 [((0:ℚ),(0:ℚ)), (1,0), (1,1), (0,1), (0,0)])).1
      [((0:ℚ),(0:ℚ)), (1,0), (1,1), (0,1), (0,0)] (by with_unfolding_all decide),
   (mainLandFeatures_spec
      (List.replicate 100 [((0:ℚ),(0:ℚ)), (1,0), (1,1), (0,1), (0,0)])).2.2.2
      (by with_unfolding_all decide)⟩

lemma relabel_getI_geometry :
    ∀ (l : List Feature) (n k : ℕ), k < l.length →
      (((l.enumFrom n).map (fun p : ℕ × Feature =>
          { p.2 with fid := "island-" ++ toString p.1,
                     fname := "Island " ++ toString p.1 })).getI k).geometry =
        (l.getI k).geometry
  | [], _, _, hk => by simp at hk
  | x :: xs, n, 0, _ => by simp [List.enumFrom, List.getI_cons_zero]
  | x :: xs, n, k + 1, hk => by
    have hk' : k < xs.length := by simpa using hk
    simpa [List.enumFrom, List.getI_cons_succ] using
      relabel_getI_geometry xs (n + 1) k hk'

/-- Claim C9: the combine stage outputs exactly one hand-authored mainland
feature followed by every island feature in order; each island feature keeps
its geometry unchanged (only its labels are rewritten), and no feature is
dropped, split, or merged — the output length is exactly one plus the input
length. -/
theorem combinedFeatures_spec (islands : List Feature) :
    (combinedFeatures islands).length = islands.length + 1 ∧
      (combinedFeatures islands).getI 0 = mainlandFeature ∧
      ∀ k, k < islands.length →
        ((combinedFeatures islands).getI (k + 1)).geometry = (islands.getI k).geometry := by
  refine ⟨?_, ?_, ?_⟩
  · simp [combinedFeatures, List.enum_length]
  · rfl
  · intro k hk
    simp only [combinedFeatures, List.getI_cons_succ]
    exact relabel_getI_geometry islands 0 k hk

/-- Witness for `combinedFeatures_spec`: a single one-square island yields a
two-feature output whose second feature carries the island's geometry. -/
theorem combinedFeatures_spec_witness :
    (combinedFeatures [sampleIsland]).length = 1 + 1 ∧
      ((combinedFeatures [sampleIsland]).getI 1).geometry = sampleIsland.geometry :=
  ⟨(combinedFeatures_spec [sampleIsland]).1,
   by
    have h := (combinedFeatures_spec [sampleIsland]).2.2 0 (by norm_num)
    simpa using h⟩

lemma headI_append_of_ne_nil {l l' : List Coord} (h : l ≠ []) :
    (l ++ l').headI = l.headI := by
  cases l with
  | nil => exact absurd rfl h
  | cons a t => rfl

lemma getLastI_concat (l : List Coord) (a : Coord) : (l ++ [a]).getLastI = a := by
  rw [List.getLastI_eq_getLast?, List.getLast?_concat]

lemma firstUnused_not_mem {cands used : List ℕ} {c : ℕ}
    (h : firstUnused cands used = some c) : c ∉ used := by
  have := List.find?_some h
  simpa using this

lemma firstUnused_mem {cands used : List ℕ} {c : ℕ}
    (h : firstUnused cands used = some c) : c ∈ cands :=
  List.mem_of_find?_eq_some h

lemma extendRing_some_spec (segs : List (List Coord)) :
    ∀ (fuel : ℕ) (ring : List Coord) (used : List ℕ) (r : List Coord) (u : List ℕ),
      2 ≤ ring.length → extendRing segs fuel ring used = (some r, u) →
        4 ≤ r.length ∧ coordKey r.headI = coordKey r.getLastI := by
  intro fuel
  induction fuel with
  | zero => intro ring used r u _ h; simp [extendRing] at h
  | succ f ih =>
    intro ring used r u hlen h
    rw [extendRing] at h
    by_cases hclose : coordKey ring.headI = coordKey ring.getLastI ∧ 3 < ring.length
    · rw [if_pos hclose] at h
      obtain ⟨hr, _⟩ := Prod.mk.injEq _ _ _ _ ▸ h
      cases h
      exact ⟨by omega, hclose.1⟩
    · rw [if_neg hclose] at h
      cases hs : firstUnused (startCandidates segs (coordKey ring.getLastI)) used with
      | some c =>
        rw [hs] at h
        exact ih _ _ _ _ (le_trans hlen (by simp)) h
      | none =>
        rw [hs] at h
        cases he : firstUnused (endCandidates segs (coordKey ring.getLastI)) used with
        | some c =>
          rw [he] at h
          exact ih _ _ _ _ (le_trans hlen (by simp)) h
        | none =>
          rw [he] at h
          by_cases hforce : 10 < ring.length
          · rw [if_pos hforce] at h
            cases h
            have hne : ring ≠ [] := by
              intro hnil; rw [hnil] at hforce; simp at hforce
            constructor
            · simp; omega
            · rw [headI_append_of_ne_nil hne, getLastI_concat]
          · rw [if_neg hforce] at h
            simp at h

lemma mergeSegsAux_rings_spec (segs : List (List Coord)) :
    ∀ (idxs : List ℕ) (rings : List (List Coord)) (used : List ℕ),
      (∀ r ∈ rings, 2 ≤ r.length ∧ coordKey r.headI = coordKey r.getLastI) →
      ∀ r ∈ (mergeSegsAux segs idxs rings used).1,
        2 ≤ r.length ∧ coordKey r.headI = coordKey r.getLastI := by
  intro idxs
  induction idxs with
  | nil => intro rings used hacc r hr; rw [mergeSegsAux] at hr; exact hacc r hr
  | cons i rest ih =>
    intro rings used hacc r hr
    rw [mergeSegsAux] at hr
    by_cases hu : i ∈ used
    · rw [if_pos hu] at hr; exact ih rings used hacc r hr
    · rw [if_neg hu] at hr
      by_cases hshort : (segs.getI i).length < 2
      · rw [if_pos hshort] at hr; exact ih rings used hacc r hr
      · rw [if_neg hshort] at hr
        by_cases hclosed : coordKey (segs.getI i).headI = coordKey (segs.getI i).getLastI
        · rw [if_pos hclosed] at hr
          refine ih _ _ ?_ r hr
          intro r' hr'
          rcases List.mem_append.mp hr' with h | h
          · exact hacc r' h
          · rcases List.mem_singleton.mp h with rfl
            exact ⟨by omega, hclosed⟩
        · rw [if_neg hclosed] at hr
          cases hext : extendRing segs maxIterations (segs.getI i) (i :: used) with
          | mk ringOpt used' =>
            rw [hext] at hr
            cases ringOpt with
            | some newRing =>
              refine ih _ _ ?_ r hr
              intro r' hr'
              rcases List.mem_append.mp hr' with h | h
              · exact hacc r' h
              · rcases List.mem_singleton.mp h with rfl
                have := extendRing_some_spec segs maxIterations (segs.getI i)
                  (i :: used) r' used' (by omega) hext
                exact ⟨by omega, this.2⟩
            | none => exact ih _ _ hacc r hr

/-- Claim C1 as amended: every ring produced by `mergeSegments` has at least
2 points and its first and last coordinates carry the same coordinate key;
rings emitted by the extension loop (closed or force-closed) have at least 4
points, but a segment whose own first and last keys are equal is accepted
directly as a closed ring and may have as few as 2 points — so the claimed
unconditional 4-point minimum fails only on that direct-accept branch. -/
theorem mergeSegments_endpoint_keys_match :
    (∀ segs : List (List Coord), ∀ r ∈ mergeSegments segs,
        2 ≤ r.length ∧ coordKey r.headI = coordKey r.getLastI) ∧
      ∀ (segs : List (List Coord)) (fuel : ℕ) (ring : List Coord)
        (used : List ℕ) (r : List Coord) (u : List ℕ), 2 ≤ ring.length →
          extendRing segs fuel ring used = (some r, u) → 4 ≤ r.length := by
  constructor
  · intro segs r hr
    exact mergeSegsAux_rings_spec segs (List.range segs.length) [] []
      (by intro r' hr'; simp at hr') r hr
  · intro segs fuel ring used r u hlen hext
    exact (extendRing_some_spec segs fuel ring used r u hlen hext).1

/-- Witness for `mergeSegments_endpoint_keys_match`: the directly accepted
3-point ring satisfies the ≥2-points/matching-keys invariant, and the
extension loop's emission on the two-segment unit-square input has ≥4
points. -/
theorem mergeSegments_endpoint_keys_match_witness :
    (2 ≤ ([((0:ℚ),(0:ℚ)), (1,0), (0,0)] : List Coord).length ∧
        coordKey (([((0:ℚ),(0:ℚ)), (1,0), (0,0)] : List Coord)).headI =
          coordKey (([((0:ℚ),(0:ℚ)), (1,0), (0,0)] : List Coord)).getLastI) ∧
      4 ≤ ([((0:ℚ),(0:ℚ)), (1,0), (1,1), (0,1), (0,0)] : List Coord).length :=
  ⟨mergeSegments_endpoint_keys_match.1 [[((0:ℚ),(0:ℚ)), (1,0), (0,0)]]
      [((0:ℚ),(0:ℚ)), (1,0), (0,0)] (by with_unfolding_all decide),
   mergeSegments_endpoint_keys_match.2
      [[((1:ℚ),(1:ℚ)), (0,1), (0,0)]] 10000
      [((0:ℚ),(0:ℚ)), (1,0), (1,1)] [] [((0:ℚ),(0:ℚ)), (1,0), (1,1), (0,1), (0,0)] [0]
      (by decide) (by with_unfolding_all decide)⟩

lemma extendRing_used_spec (segs : List (List Coord)) :
    ∀ (fuel : ℕ) (ring : List Coord) (used : List ℕ), used.Nodup →
      (extendRing segs fuel ring used).2.Nodup ∧
        used ⊆ (extendRing segs fuel ring used).2 := by
  intro fuel
  induction fuel with
  | zero => intro ring used hnd; simp [extendRing]; exact hnd
  | succ f ih =>
    intro ring used hnd
    rw [extendRing]
    by_cases hclose : coordKey ring.headI = coordKey ring.getLastI ∧ 3 < ring.length
    · rw [if_pos hclose]; exact ⟨hnd, fun a ha => ha⟩
    · rw [if_neg hclose]
      cases hs : firstUnused (startCandidates segs (coordKey ring.getLastI)) used with
      | some c =>
        have hc : c ∉ used := firstUnused_not_mem hs
        have := ih (ring ++ (segs.getI c).drop 1) (c :: used)
          (List.nodup_cons.mpr ⟨hc, hnd⟩)
        exact ⟨this.1, fun a ha => this.2 (List.mem_cons_of_mem c ha)⟩
      | none =>
        cases he : firstUnused (endCandidates segs (coordKey ring.getLastI)) used with
        | some c =>
          have hc : c ∉ used := firstUnused_not_mem he
          have := ih (ring ++ (segs.getI c).reverse.drop 1) (c :: used)
            (List.nodup_cons.mpr ⟨hc, hnd⟩)
          exact ⟨this.1, fun a ha => this.2 (List.mem_cons_of_mem c ha)⟩
        | none =>
          by_cases hforce : 10 < ring.length
          · rw [if_pos hforce]; exact ⟨hnd, fun a ha => ha⟩
          · rw [if_neg hforce]; exact ⟨hnd, fun a ha => ha⟩

lemma mergeSegsAux_used_spec (segs : List (List Coord)) :
    ∀ (idxs : List ℕ) (rings : List (List Coord)) (used : List ℕ), used.Nodup →
      (mergeSegsAux segs idxs rings used).2.Nodup ∧
        used ⊆ (mergeSegsAux segs idxs rings used).2 := by
  intro idxs
  induction idxs with
  | nil => intro rings used hnd; rw [mergeSegsAux]; exact ⟨hnd, fun a ha => ha⟩
  | cons i rest ih =>
    intro rings used hnd
    rw [mergeSegsAux]
    by_cases hu : i ∈ used
    · rw [if_pos hu]; exact ih rings used hnd
    · rw [if_neg hu]
      by_cases hshort : (segs.getI i).length < 2
      · rw [if_pos hshort]; exact ih rings used hnd
      · rw [if_neg hshort]
        by_cases hclosed : coordKey (segs.getI i).headI = coordKey (segs.getI i).getLastI
        · rw [if_pos hclosed]
          have := ih (rings ++ [segs.getI i]) (i :: used)
            (List.nodup_cons.mpr ⟨hu, hnd⟩)
          exact ⟨this.1, fun a ha => this.2 (List.mem_cons_of_mem i ha)⟩
        · rw [if_neg hclosed]
          have hext := extendRing_used_spec segs maxIterations (segs.getI i) (i :: used)
            (List.nodup_cons.mpr ⟨hu, hnd⟩)
          cases hpair : extendRing segs maxIterations (segs.getI i) (i :: used) with
          | mk ringOpt used' =>
            rw [hpair] at hext
            have hih := ih (match ringOpt with
              | some r => rings ++ [r]
              | none => rings) used' hext.1
            cases ringOpt with
            | some r =>
              refine ⟨hih.1, fun a ha => hih.2 ?_⟩
              exact hext.2 (List.mem_cons_of_mem i ha)
            | none =>
              refine ⟨hih.1, fun a ha => hih.2 ?_⟩
              exact hext.2 (List.mem_cons_of_mem i ha)

/-- Claim C10: the consumed-id set of `mergeSegments` never gains a duplicate
and only ever grows: an id is only consumed when not yet in the set (the
candidate scan returns only unconsumed ids), so each input segment index is
appended to at most one ring and the index sets underlying distinct produced
rings are pairwise disjoint. -/
theorem consumed_at_most_once :
    (∀ (segs : List (List Coord)) (idxs : List ℕ) (rings : List (List Coord))
        (used : List ℕ), used.Nodup →
          (mergeSegsAux segs idxs rings used).2.Nodup ∧
            used ⊆ (mergeSegsAux segs idxs rings used).2) ∧
      ∀ (cands used : List ℕ) (c : ℕ),
        firstUnused cands used = some c → c ∉ used ∧ c ∈ cands := by
  constructor
  · intro segs idxs rings used hnd
    exact mergeSegsAux_used_spec segs idxs rings used hnd
  · intro cands used c h
    exact ⟨firstUnused_not_mem h, firstUnused_mem h⟩

/-- Witness for `consumed_at_most_once` at the two-segment unit-square input:
the final consumed set is duplicate-free and contains the initially consumed
set, and the candidate scan returns an unconsumed listed id. -/
theorem consumed_at_most_once_witness :
    ((mergeSegsAux [[((0:ℚ),(0:ℚ)), (1,0), (1,1)], [((1:ℚ),(1:ℚ)), (0,1), (0,0)]]
          [0, 1] [] []).2.Nodup ∧
        [] ⊆ (mergeSegsAux [[((0:ℚ),(0:ℚ)), (1,0), (1,1)], [((1:ℚ),(1:ℚ)), (0,1), (0,0)]]
          [0, 1] [] []).2) ∧
      ((0 : ℕ) ∉ ([1] : List ℕ) ∧ (0 : ℕ) ∈ ([0] : List ℕ)) :=
  ⟨consumed_at_most_once.1 [[((0:ℚ),(0:ℚ)), (1,0), (1,1)], [((1:ℚ),(1:ℚ)), (0,1), (0,0)]]
      [0, 1] [] [] List.nodup_nil,
   consumed_at_most_once.2 [0] [1] 0 (by decide)⟩

lemma mem_startCandidates {segs : List (List Coord)} {k : Key} {i : ℕ}
    (h : i ∈ startCandidates segs k) :
    2 ≤ (segs.getI i).length ∧ i < segs.length := by
  rw [startCandidates, List.mem_filter] at h
  refine ⟨(of_decide_eq_true h.2).1, List.mem_range.mp h.1⟩

lemma mem_endCandidates {segs : List (List Coord)} {k : Key} {i : ℕ}
    (h : i ∈ endCandidates segs k) :
    2 ≤ (segs.getI i).length ∧ i < segs.length := by
  rw [endCandidates, List.mem_filter] at h
  refine ⟨(of_decide_eq_true h.2).1, List.mem_range.mp h.1⟩

lemma extendRing_used_long (segs : List (List Coord)) :
    ∀ (fuel : ℕ) (ring : List Coord) (used : List ℕ),
      (∀ i ∈ used, 2 ≤ (segs.getI i).length) →
      ∀ i ∈ (extendRing segs fuel ring used).2, 2 ≤ (segs.getI i).length := by
  intro fuel
  induction fuel with
  | zero => intro ring used hused i hi; rw [extendRing] at hi; exact hused i hi
  | succ f ih =>
    intro ring used hused i hi
    rw [extendRing] at hi
    by_cases hclose : coordKey ring.headI = coordKey ring.getLastI ∧ 3 < ring.length
    · rw [if_pos hclose] at hi; exact hused i hi
    · rw [if_neg hclose] at hi
      cases hs : firstUnused (startCandidates segs (coordKey ring.getLastI)) used with
      | some c =>
        rw [hs] at hi
        refine ih _ (c :: used) ?_ i hi
        intro j hj
        rcases List.mem_cons.mp hj with rfl | hj
        · exact (mem_startCandidates (firstUnused_mem hs)).1
        · exact hused j hj
      | none =>
        rw [hs] at hi
        cases he : firstUnused (endCandidates segs (coordKey ring.getLastI)) used with
        | some c =>
          rw [he] at hi
          refine ih _ (c :: used) ?_ i hi
          intro j hj
          rcases List.mem_cons.mp hj with rfl | hj
          · exact (mem_endCandidates (firstUnused_mem he)).1
          · exact hused j hj
        | none =>
          rw [he] at hi
          by_cases hforce : 10 < ring.length
          · rw [if_pos hforce] at hi; exact hused i hi
          · rw [if_neg hforce] at hi; exact hused i hi

lemma mergeSegsAux_used_long (segs : List (List Coord)) :
    ∀ (idxs : List ℕ) (rings : List (List Coord)) (used : List ℕ),
      (∀ i ∈ used, 2 ≤ (segs.getI i).length) →
      ∀ i ∈ (mergeSegsAux segs idxs rings used).2, 2 ≤ (segs.getI i).length := by
  intro idxs
  induction idxs with
  | nil => intro rings used hused i hi; rw [mergeSegsAux] at hi; exact hused i hi
  | cons j rest ih =>
    intro rings used hused i hi
    rw [mergeSegsAux] at hi
    by_cases hu : j ∈ used
    · rw [if_pos hu] at hi; exact ih rings used hused i hi
    · rw [if_neg hu] at hi
      by_cases hshort : (segs.getI j).length < 2
      · rw [if_pos hshort] at hi; exact ih rings used hused i hi
      · rw [if_neg hshort] at hi
        have hcons : ∀ i' ∈ j :: used, 2 ≤ (segs.getI i').length := by
          intro i' hi'
          rcases List.mem_cons.mp hi' with rfl | hi'
          · omega
          · exact hused i' hi'
        by_cases hclosed : coordKey (segs.getI j).headI = coordKey (segs.getI j).getLastI
        · rw [if_pos hclosed] at hi
          exact ih _ (j :: used) hcons i hi
        · rw [if_neg hclosed] at hi
          cases hpair : extendRing segs maxIterations (segs.getI j) (j :: used) with
          | mk ringOpt used' =>
            rw [hpair] at hi
            have hlong : ∀ i' ∈ used', 2 ≤ (segs.getI i').length := by
              intro i' hi'
              exact extendRing_used_long segs maxIterations (segs.getI j) (j :: used)
                hcons i' (by rw [hpair]; exact hi')
            cases ringOpt with
            | some r => exact ih _ used' hlong i hi
            | none => exact ih _ used' hlong i hi

lemma startCandidates_append (segs : List (List Coord)) (c : Coord) (k : Key) :
    startCandidates (segs ++ [[c]]) k = startCandidates segs k := by
  rw [startCandidates, startCandidates]
  have hlen : (segs ++ [[c]]).length = segs.length + 1 := by simp
  rw [hlen, List.range_succ, List.filter_append]
  have h1 : (List.range segs.length).filter
      (fun i => decide (2 ≤ ((segs ++ [[c]]).getI i).length ∧
        coordKey ((segs ++ [[c]]).getI i).headI = k)) =
      (List.range segs.length).filter
      (fun i => decide (2 ≤ (segs.getI i).length ∧
        coordKey (segs.getI i).headI = k)) := by
    apply List.filter_congr
    intro i hi
    rw [List.getI_append _ _ _ (List.mem_range.mp hi)]
  have h2 : ([segs.length] : List ℕ).filter
      (fun i => decide (2 ≤ ((segs ++ [[c]]).getI i).length ∧
        coordKey ((segs ++ [[c]]).getI i).headI = k)) = [] := by
    have hgt : ((segs ++ [[c]]).getI segs.length) = [c] := by
      rw [List.getI_append_right _ _ _ (le_refl _), Nat.sub_self]
      rfl
    simp [hgt]
  rw [h1, h2, List.append_nil]

lemma endCandidates_append (segs : List (List Coord)) (c : Coord) (k : Key) :
    endCandidates (segs ++ [[c]]) k = endCandidates segs k := by
  rw [endCandidates, endCandidates]
  have hlen : (segs ++ [[c]]).length = segs.length + 1 := by simp
  rw [hlen, List.range_succ, List.filter_append]
  have h1 : (List.range segs.length).filter
      (fun i => decide (2 ≤ ((segs ++ [[c]]).getI i).length ∧
        coordKey ((segs ++ [[c]]).getI i).getLastI = k)) =
      (List.range segs.length).filter
      (fun i => decide (2 ≤ (segs.getI i).length ∧
        coordKey (segs.getI i).getLastI = k)) := by
    apply List.filter_congr
    intro i hi
    rw [List.getI_append _ _ _ (List.mem_range.mp hi)]
  have h2 : ([segs.length] : List ℕ).filter
      (fun i => decide (2 ≤ ((segs ++ [[c]]).getI i).length ∧
        coordKey ((segs ++ [[c]]).getI i).getLastI = k)) = [] := by
    have hgt : ((segs ++ [[c]]).getI segs.length) = [c] := by
      rw [List.getI_append_right _ _ _ (le_refl _), Nat.sub_self]
      rfl
    simp [hgt]
  rw [h1, h2, List.append_nil]

lemma extendRing_append (segs : List (List Coord)) (c : Coord) :
    ∀ (fuel : ℕ) (ring : List Coord) (used : List ℕ),
      extendRing (segs ++ [[c]]) fuel ring used = extendRing segs fuel ring used := by
  intro fuel
  induction fuel with
  | zero => intro ring used; rw [extendRing, extendRing]
  | succ f ih =>
    intro ring used
    rw [extendRing, extendRing]
    simp only [startCandidates_append, endCandidates_append]
    by_cases hclose : coordKey ring.headI = coordKey ring.getLastI ∧ 3 < ring.length
    · rw [if_pos hclose, if_pos hclose]
    · rw [if_neg hclose, if_neg hclose]
      cases hs : firstUnused (startCandidates segs (coordKey ring.getLastI)) used with
      | some c' =>
        have hlt : c' < segs.length := (mem_startCandidates (firstUnused_mem hs)).2
        dsimp only
        rw [List.getI_append _ _ _ hlt, ih]
      | none =>
        cases he : firstUnused (endCandidates segs (coordKey ring.getLastI)) used with
        | some c' =>
          have hlt : c' < segs.length := (mem_endCandidates (firstUnused_mem he)).2
          dsimp only
          rw [List.getI_append _ _ _ hlt, ih]
        | none => rfl

lemma mergeSegsAux_append_congr (segs : List (List Coord)) (c : Coord) :
    ∀ (idxs : List ℕ) (rings : List (List Coord)) (used : List ℕ),
      (∀ i ∈ idxs, i < segs.length) →
      mergeSegsAux (segs ++ [[c]]) idxs rings used = mergeSegsAux segs idxs rings used := by
  intro idxs
  induction idxs with
  | nil => intro rings used _; rw [mergeSegsAux, mergeSegsAux]
  | cons i rest ih =>
    intro rings used hbound
    have hi : i < segs.length := hbound i (List.mem_cons_self i rest)
    have hrest : ∀ j ∈ rest, j < segs.length :=
      fun j hj => hbound j (List.mem_cons_of_mem i hj)
    rw [mergeSegsAux, mergeSegsAux]
    simp only [List.getI_append _ _ _ hi, extendRing_append]
    by_cases hu : i ∈ used
    · rw [if_pos hu, if_pos hu, ih _ _ hrest]
    · rw [if_neg hu, if_neg hu]
      by_cases hshort : (segs.getI i).length < 2
      · rw [if_pos hshort, if_pos hshort, ih _ _ hrest]
      · rw [if_neg hshort, if_neg hshort]
        by_cases hclosed : coordKey (segs.getI i).headI = coordKey (segs.getI i).getLastI
        · rw [if_pos hclosed, if_pos hclosed, ih _ _ hrest]
        · rw [if_neg hclosed, if_neg hclosed]
          cases hpair : extendRing segs maxIterations (segs.getI i) (i :: used) with
          | mk ringOpt used' =>
            cases ringOpt with
            | some r => dsimp only; rw [ih _ _ hrest]
            | none => dsimp only; rw [ih _ _ hrest]

lemma mergeSegsAux_idxs_append (segs : List (List Coord)) :
    ∀ (l1 l2 : List ℕ) (rings : List (List Coord)) (used : List ℕ),
      mergeSegsAux segs (l1 ++ l2) rings used =
        mergeSegsAux segs l2 (mergeSegsAux segs l1 rings used).1
          (mergeSegsAux segs l1 rings used).2 := by
  intro l1
  induction l1 with
  | nil => intro l2 rings used; rw [List.nil_append, mergeSegsAux]
  | cons i rest ih =>
    intro l2 rings used
    rw [List.cons_append]
    simp only [mergeSegsAux]
    by_cases hu : i ∈ used
    · simp only [if_pos hu]; rw [ih]
    · simp only [if_neg hu]
      by_cases hshort : (segs.getI i).length < 2
      · simp only [if_pos hshort]; rw [ih]
      · simp only [if_neg hshort]
        by_cases hclosed : coordKey (segs.getI i).headI = coordKey (segs.getI i).getLastI
        · simp only [if_pos hclosed]; rw [ih]
        · simp only [if_neg hclosed]
          cases hpair : extendRing segs maxIterations (segs.getI i) (i :: used) with
          | mk ringOpt used' =>
            cases ringOpt with
            | some r => dsimp only; rw [ih]
            | none => dsimp only; rw [ih]

lemma mergeSegsAux_last_short (segs : List (List Coord)) (c : Coord)
    (rings : List (List Coord)) (used : List ℕ) :
    mergeSegsAux (segs ++ [[c]]) [segs.length] rings used = (rings, used) := by
  rw [mergeSegsAux]
  by_cases hu : segs.length ∈ used
  · rw [if_pos hu, mergeSegsAux]
  · rw [if_neg hu]
    have hgt : ((segs ++ [[c]]).getI segs.length) = [c] := by
      rw [List.getI_append_right _ _ _ (le_refl _), Nat.sub_self]
      rfl
    rw [hgt]
    rw [if_pos (by norm_num : ([c] : List Coord).length < 2), mergeSegsAux]

/-- Claim C8: a segment with fewer than 2 coordinates never appears in either
endpoint index (both candidate lookups return only ids of segments with ≥2
coordinates), every id ever marked consumed belongs to a segment with ≥2
coordinates, and appending a one-point segment to any input leaves the
produced rings unchanged. -/
theorem short_segments_ignored :
    (∀ (segs : List (List Coord)) (k : Key) (i : ℕ),
        i ∈ startCandidates segs k → 2 ≤ (segs.getI i).length) ∧
      (∀ (segs : List (List Coord)) (k : Key) (i : ℕ),
          i ∈ endCandidates segs k → 2 ≤ (segs.getI i).length) ∧
      (∀ (segs : List (List Coord)) (i : ℕ),
          i ∈ (mergeSegsAux segs (List.range segs.length) [] []).2 →
            2 ≤ (segs.getI i).length) ∧
      ∀ (segs : List (List Coord)) (c : Coord),
          mergeSegments (segs ++ [[c]]) = mergeSegments segs := by
  refine ⟨?_, ?_, ?_, ?_⟩
  · intro segs k i h; exact (mem_startCandidates h).1
  · intro segs k i h; exact (mem_endCandidates h).1
  · intro segs i h
    exact mergeSegsAux_used_long segs (List.range segs.length) [] []
      (by intro j hj; simp at hj) i h
  · intro segs c
    rw [mergeSegments, mergeSegments]
    have hlen : (segs ++ [[c]]).length = segs.length + 1 := by simp
    rw [hlen, List.range_succ, mergeSegsAux_idxs_append,
      mergeSegsAux_append_congr segs c (List.range segs.length) [] []
        (fun i hi => List.mem_range.mp hi),
      mergeSegsAux_last_short]

/-- Witness for `short_segments_ignored`: the sole segment of a concrete
index bucket has 2 points, the consumed id of a one-closed-segment run has a
3-point segment, and appending the one-point segment `[(5,5)]` leaves the
output of the 3-point-ring input unchanged. -/
theorem short_segments_ignored_witness :
    2 ≤ (([[((0:ℚ),(0:ℚ)), (1,0)]] : List (List Coord)).getI 0).length ∧
      2 ≤ (([[((0:ℚ),(0:ℚ)), (1,0), (0,0)]] : List (List Coord)).getI 0).length ∧
      mergeSegments ([[((0:ℚ),(0:ℚ)), (1,0), (0,0)]] ++ [[((5:ℚ),(5:ℚ))]]) =
        mergeSegments [[((0:ℚ),(0:ℚ)), (1,0), (0,0)]] :=
  ⟨short_segments_ignored.1 [[((0:ℚ),(0:ℚ)), (1,0)]] (coordKey ((0:ℚ),(0:ℚ))) 0
      (by with_unfolding_all decide),
   short_segments_ignored.2.2.1 [[((0:ℚ),(0:ℚ)), (1,0), (0,0)]] 0
      (by with_unfolding_all decide),
   short_segments_ignored.2.2.2 [[((0:ℚ),(0:ℚ)), (1,0), (0,0)]] ((5:ℚ),(5:ℚ))⟩

lemma toFixed6_natCast (a : ℕ) : toFixed6 ((a : ℚ)) = (false, (a : ℤ) * 1000000) := by
  rw [toFixed6]
  have h1 : decide ((a : ℚ) < 0) = false := by
    simp [decide_eq_false_iff_not, not_lt]
  have h2 : round (|(a : ℚ)| * 1000000) = (a : ℤ) * 1000000 := by
    rw [abs_of_nonneg (by positivity : (0:ℚ) ≤ (a : ℚ))]
    have h3 : ((a : ℚ)) * 1000000 = ((a * 1000000 : ℕ) : ℚ) := by push_cast; ring
    rw [h3, round_natCast]
    push_cast
    ring
  rw [h1, h2]

lemma coordKey_nat_inj {a b : ℕ} :
    coordKey ((a : ℚ), 0) = coordKey ((b : ℚ), 0) ↔ a = b := by
  rw [coordKey, coordKey, toFixed6_natCast, toFixed6_natCast]
  constructor
  · intro h
    have h1 : (a : ℤ) * 1000000 = (b : ℤ) * 1000000 := congrArg (fun p => p.1.2) h
    omega
  · intro h; rw [h]

lemma chainSegs_length (n : ℕ) : (chainSegs n).length = n := by simp [chainSegs]

lemma chainSegs_getI {n k : ℕ} (h : k < n) :
    (chainSegs n).getI k = [((k : ℚ), 0), ((k : ℚ) + 1, 0)] := by
  have hk : k < (chainSegs n).length := by rw [chainSegs_length]; exact h
  rw [List.getI_eq_getElem _ hk]
  simp [chainSegs]

lemma chainRing_headI (m : ℕ) : (chainRing m).headI = ((0 : ℚ), 0) := by
  rw [chainRing]
  rw [show m + 2 = (m + 1) + 1 from rfl, List.range_succ_eq_map]
  simp

lemma chainRing_eq_concat (m : ℕ) :
    chainRing m = (List.range (m + 1)).map (fun j : ℕ => (((j : ℚ)), 0)) ++
      [(((m + 1 : ℕ) : ℚ), 0)] := by
  rw [chainRing, show m + 2 = (m + 1) + 1 from rfl, List.range_succ, List.map_append]
  rfl

lemma chainRing_getLastI (m : ℕ) :
    (chainRing m).getLastI = (((m + 1 : ℕ) : ℚ), 0) := by
  rw [chainRing_eq_concat, getLastI_concat]

lemma chainRing_length (m : ℕ) : (chainRing m).length = m + 2 := by simp [chainRing]

lemma chainRing_step (m : ℕ) :
    chainRing m ++ [(((m + 1 : ℕ) : ℚ) + 1, 0)] = chainRing (m + 1) := by
  rw [show chainRing (m + 1) = (List.range (m + 2)).map (fun j : ℕ => (((j : ℚ)), 0)) ++
      [(((m + 2 : ℕ) : ℚ), 0)] from chainRing_eq_concat (m + 1), chainRing]
  congr 1
  have h : (((m + 1 : ℕ) : ℚ)) + 1 = ((m + 2 : ℕ) : ℚ) := by push_cast; ring
  rw [h]

lemma mem_usedTo {i m : ℕ} : i ∈ usedTo m ↔ i < m + 1 := by
  simp [usedTo, List.mem_range]

lemma usedTo_step (m : ℕ) : (m + 1) :: usedTo m = usedTo (m + 1) := by
  simp [usedTo, List.range_succ]

lemma filter_range_single : ∀ (n m : ℕ), m < n →
    (List.range n).filter (fun i => decide (i = m)) = [m] := by
  intro n
  induction n with
  | zero => intro m hm; omega
  | succ n ih =>
    intro m hm
    rw [List.range_succ, List.filter_append]
    by_cases h : m < n
    · rw [ih m h]
      have hne : ¬ (n = m) := by omega
      have hnil : (List.filter (fun i => decide (i = m)) [n]) = [] := by
        simp [List.filter_cons, hne]
      rw [hnil, List.append_nil]
    · have hm' : m = n := by omega
      subst hm'
      have h1 : (List.range m).filter (fun i => decide (i = m)) = [] := by
        rw [List.filter_eq_nil_iff]
        intro a ha
        simp only [decide_eq_true_eq]
        exact Nat.ne_of_lt (List.mem_range.mp ha)
      have h2 : (List.filter (fun i => decide (i = m)) [m]) = [m] := by
        simp [List.filter_cons]
      rw [h1, h2, List.nil_append]

lemma chain_startCandidates {n m : ℕ} (h : m < n) :
    startCandidates (chainSegs n) (coordKey ((m : ℚ), 0)) = [m] := by
  rw [startCandidates, chainSegs_length]
  have hcongr : ∀ i ∈ List.range n,
      (decide (2 ≤ ((chainSegs n).getI i).length ∧
        coordKey ((chainSegs n).getI i).headI = coordKey ((m : ℚ), 0))) =
      (fun i => decide (i = m)) i := by
    intro i hi
    have hilt : i < n := List.mem_range.mp hi
    rw [chainSegs_getI hilt]
    simp only [List.length_cons, List.length_singleton, List.headI]
    rw [decide_eq_decide]
    constructor
    · intro hc; exact coordKey_nat_inj.mp hc.2
    · intro hc; exact ⟨by omega, by rw [hc]⟩
  rw [List.filter_congr hcongr, filter_range_single n m h]

lemma chain_firstUnused (m : ℕ) :
    firstUnused [m + 1] (usedTo m) = some (m + 1) := by
  rw [firstUnused]
  have hdec : decide ((m + 1) ∉ usedTo m) = true := by
    rw [decide_eq_true_iff, mem_usedTo]
    omega
  simp [List.find?, hdec]

lemma chain_extend : ∀ (f m : ℕ), f + m = 10000 →
    extendRing (chainSegs 10001) f (chainRing m) (usedTo m) = (none, usedTo 10000) := by
  intro f
  induction f with
  | zero =>
    intro m hm
    have hm' : m = 10000 := by omega
    subst hm'
    rw [extendRing]
  | succ f ih =>
    intro m hm
    rw [extendRing, chainRing_getLastI, chainRing_headI]
    have hne : ¬ (coordKey ((0 : ℚ), 0) = coordKey (((m + 1 : ℕ) : ℚ), 0) ∧
        3 < (chainRing m).length) := by
      intro hc
      have h0 : ((0 : ℚ), (0 : ℚ)) = (((0 : ℕ) : ℚ), (0 : ℚ)) := by norm_num
      rw [h0] at hc
      have := coordKey_nat_inj.mp hc.1
      omega
    rw [if_neg hne]
    rw [chain_startCandidates (show m + 1 < 10001 by omega), chain_firstUnused m]
    dsimp only
    rw [chainSegs_getI (show m + 1 < 10001 by omega)]
    rw [show List.drop 1 [(((m + 1 : ℕ) : ℚ), (0 : ℚ)), (((m + 1 : ℕ) : ℚ) + 1, (0 : ℚ))] =
      [(((m + 1 : ℕ) : ℚ) + 1, (0 : ℚ))] from rfl]
    rw [chainRing_step, usedTo_step]
    exact ih (m + 1) (by omega)

lemma mergeSegsAux_all_used (segs : List (List Coord)) :
    ∀ (idxs : List ℕ) (rings : List (List Coord)) (used : List ℕ),
      (∀ i ∈ idxs, i ∈ used) → mergeSegsAux segs idxs rings used = (rings, used) := by
  intro idxs
  induction idxs with
  | nil => intro rings used _; rw [mergeSegsAux]
  | cons i rest ih =>
    intro rings used h
    rw [mergeSegsAux, if_pos (h i (List.mem_cons_self i rest))]
    exact ih rings used (fun j hj => h j (List.mem_cons_of_mem i hj))

lemma chainRing_zero : chainRing 0 = [(((0 : ℕ) : ℚ), (0 : ℚ)), (((0 : ℕ) : ℚ) + 1, (0 : ℚ))] := by
  rw [chainRing]
  norm_num [List.range_succ]

lemma mergeSegsAux_cons_open (segs : List (List Coord)) (i : ℕ) (rest : List ℕ)
    (rings : List (List Coord)) (used u' : List ℕ)
    (h1 : i ∉ used) (h2 : ¬ (segs.getI i).length < 2)
    (h3 : ¬ coordKey (segs.getI i).headI = coordKey (segs.getI i).getLastI)
    (h4 : extendRing segs maxIterations (segs.getI i) (i :: used) = (none, u')) :
    mergeSegsAux segs (i :: rest) rings used = mergeSegsAux segs rest rings u' := by
  rw [mergeSegsAux, if_neg h1, if_neg h2, if_neg h3, h4]

/-- Counterexample to claim C3: on the 10001-segment chain the extension loop
runs out of its 10000-iteration budget while holding a 10002-point ring in
progress — well above the force-close threshold of 10 — yet `mergeSegments`
produces no ring at all: the cap abandons the ring unconditionally instead of
applying the step-3 force-close/discard policy, which here would have emitted
a force-closed ring. -/
theorem iteration_cap_drops_long_ring :
    mergeSegments (chainSegs 10001) = [] ∧ 10 < (chainRing 10000).length := by
  constructor
  · have hseg : (chainSegs 10001).getI 0 = chainRing 0 := by
      rw [chainSegs_getI (show 0 < 10001 by norm_num), chainRing_zero]
    have hlen2 : ¬ ((chainSegs 10001).getI 0).length < 2 := by
      rw [hseg, chainRing_length]
      omega
    have hne : ¬ coordKey ((chainSegs 10001).getI 0).headI =
        coordKey ((chainSegs 10001).getI 0).getLastI := by
      rw [hseg, chainRing_headI, chainRing_getLastI]
      intro hc
      have h0 : ((0 : ℚ), (0 : ℚ)) = (((0 : ℕ) : ℚ), (0 : ℚ)) := by norm_num
      rw [h0] at hc
      exact absurd (coordKey_nat_inj.mp hc) (by omega)
    have hext : extendRing (chainSegs 10001) maxIterations ((chainSegs 10001).getI 0)
        (0 :: []) = (none, usedTo 10000) := by
      rw [hseg, show maxIterations = 10000 from rfl,
        show (0 : ℕ) :: ([] : List ℕ) = usedTo 0 from rfl]
      exact chain_extend 10000 0 (by norm_num)
    have hstep := mergeSegsAux_cons_open (chainSegs 10001) 0
      (List.map Nat.succ (List.range 10000)) [] [] (usedTo 10000)
      (List.not_mem_nil 0) hlen2 hne hext
    have hrest : mergeSegsAux (chainSegs 10001) (List.map Nat.succ (List.range 10000))
        [] (usedTo 10000) = ([], usedTo 10000) := by
      apply mergeSegsAux_all_used
      intro i hi
      rcases List.mem_map.mp hi with ⟨j, hj, rfl⟩
      rw [mem_usedTo]
      have := List.mem_range.mp hj
      omega
    rw [mergeSegments, chainSegs_length,
      show (10001 : ℕ) = 10000 + 1 from rfl, List.range_succ_eq_map, hstep, hrest]
  · rw [chainRing_length]; norm_num
